import Mathlib

/-!
Verification of the tabular-to-JSON projection engine of the
Json-converter repository (source: `src/src/App.tsx`).

The four pure functions `normalizeHeaders`, `isRowEmpty`, `clampNumber`
and the conversion body of the `useMemo` block (`convertResult`) are
embedded shallowly.  Cells are a closed scalar variant
(string / number / boolean / null); JavaScript runtime primitives that
the source calls (`String.prototype.trim`, template-literal number
formatting, object property assignment, `JSON.stringify`) are modelled
explicitly as total Lean functions.
-/

namespace JsonConv

/-- JavaScript whitespace recognised by our model of
`String.prototype.trim` (space, tab, newline, carriage return). -/
def jsWs (c : Char) : Bool :=
  c == ' ' || c == '\t' || c == '\n' || c == '\r'

/-- Model of JavaScript `String.prototype.trim`: drop whitespace from
both ends of the string. -/
def jsTrim (s : String) : String :=
  ⟨((s.data.dropWhile jsWs).reverse.dropWhile jsWs).reverse⟩

/-- Fueled decimal digit list of a natural number (most significant
digit first).  Fuel keeps the definition structurally recursive, so
concrete instances reduce by `rfl` / `decide`. -/
def natChars : Nat → Nat → List Char
  | 0, _ => []
  | fuel + 1, n =>
    if n < 10 then [Nat.digitChar n]
    else natChars fuel (n / 10) ++ [Nat.digitChar (n % 10)]

/-- Decimal rendering of a natural number, as produced by JavaScript
number-to-string conversion for non-negative integers. -/
def natStr (n : Nat) : String := ⟨natChars (n + 1) n⟩

/-- Decimal rendering of an integer (JavaScript number-to-string
conversion, restricted to integral values). -/
def intStr : Int → String
  | Int.ofNat n => natStr n
  | Int.negSucc n => "-" ++ natStr (n + 1)

/-- A raw spreadsheet cell: the closed scalar variant of the data
model (string, number, boolean, or null/absent). -/
inductive Cell where
  | str (s : String)
  | num (n : Int)
  | bool (b : Bool)
  | null
deriving DecidableEq, Repr

/-- JavaScript `String(v ?? '')` applied to a cell. -/
def stringifyCell : Cell → String
  | Cell.str s => s
  | Cell.num n => intStr n
  | Cell.bool b => cond b "true" "false"
  | Cell.null => ""

/-- First pass of `normalizeHeaders` (App.tsx lines 16-19): trim the
stringified cell and substitute `Column{i+1}` for blank entries. -/
def normalizeBase (values : List Cell) : List String :=
  values.enum.map (fun p =>
    let text := jsTrim (stringifyCell p.2)
    if text.length > 0 then text else "Column" ++ natStr (p.1 + 1))

/-- The key emitted for an occurrence whose base key was seen `count`
times before: unchanged the first time, otherwise suffixed with the
1-based occurrence index (App.tsx lines 22-26). -/
def renderKey (key : String) (count : Nat) : String :=
  if count = 0 then key else key ++ "_" ++ natStr (count + 1)

/-- Second pass of `normalizeHeaders` (App.tsx lines 21-27): the
`used` map (modelled as a total function with default 0, matching
`used.get(key) ?? 0`) counts prior occurrences of each base key. -/
def normalizeDedup (base : List String) : List String :=
  (base.foldl
    (fun (st : (String → Nat) × List String) key =>
      let count := st.1 key
      ((fun k => if k = key then count + 1 else st.1 k),
        st.2 ++ [if count = 0 then key else key ++ "_" ++ natStr (count + 1)]))
    ((fun _ => 0), [])).2

/-- `normalizeHeaders` from App.tsx lines 15-28. -/
def normalizeHeaders (values : List Cell) : List String :=
  normalizeDedup (normalizeBase values)

/-- `isRowEmpty` from App.tsx lines 30-36: a row is empty when every
cell is null or a string that trims to nothing. -/
def isRowEmpty (row : List Cell) : Bool :=
  row.all (fun cell =>
    match cell with
    | Cell.null => true
    | Cell.str s => (jsTrim s).length == 0
    | _ => false)

/-- `clampNumber` from App.tsx lines 38-40:
`Math.min(max, Math.max(min, value))`. -/
def clampNumber (value mn mx : Int) : Int :=
  min mx (max mn value)

end JsonConv

namespace JsonConv

/-- Occurrence-counting reference form of the dedup pass: `used k`
is the number of occurrences of `k` already processed. -/
def dedupSpec (used : String → Nat) : List String → List String
  | [] => []
  | key :: rest =>
    renderKey key (used key) :: dedupSpec (fun k => if k = key then used key + 1 else used k) rest

theorem normalizeDedup_go (rest : List String) :
    ∀ (used : String → Nat) (acc : List String),
      (rest.foldl
        (fun (st : (String → Nat) × List String) key =>
          let count := st.1 key
          ((fun k => if k = key then count + 1 else st.1 k),
            st.2 ++ [if count = 0 then key else key ++ "_" ++ natStr (count + 1)]))
        (used, acc)).2 = acc ++ dedupSpec used rest := by
  induction rest with
  | nil => intro used acc; simp [dedupSpec]
  | cons key rest ih =>
    intro used acc
    simp only [List.foldl_cons, dedupSpec]
    rw [ih]
    simp [renderKey]

theorem normalizeDedup_eq (base : List String) :
    normalizeDedup base = dedupSpec (fun _ => 0) base := by
  unfold normalizeDedup
  rw [normalizeDedup_go]
  simp

theorem dedupSpec_length (rest : List String) :
    ∀ used, (dedupSpec used rest).length = rest.length := by
  induction rest with
  | nil => intro used; simp [dedupSpec]
  | cons key rest ih => intro used; simp [dedupSpec, ih]

/-- Pointwise description of the dedup pass: position `i` holds its
base key rendered with the number of earlier occurrences of that key
(earlier within the list, plus those recorded by `processed`). -/
theorem dedupSpec_get? (rest : List String) :
    ∀ (processed : List String) (i : Nat),
      (dedupSpec (fun k => processed.count k) rest).get? i =
        (rest.get? i).map
          (fun k => renderKey k (processed.count k + (rest.take i).count k)) := by
  induction rest with
  | nil => intro processed i; simp [dedupSpec]
  | cons key rest ih =>
    intro processed i
    have hupd :
        (fun k => if k = key then (fun k => processed.count k) key + 1
                  else (fun k => processed.count k) k)
          = fun k => (processed ++ [key]).count k := by
      funext k
      by_cases hk : k = key
      · subst hk; simp [List.count_append]
      · simp [hk, List.count_append, List.count_singleton']
    cases i with
    | zero => simp [dedupSpec]
    | succ i =>
      simp only [dedupSpec, List.get?_cons_succ, List.take_succ_cons]
      rw [hupd, ih (processed ++ [key]) i]
      cases h : rest.get? i with
      | none => simp
      | some k =>
        simp only [Option.map_some']
        congr 1
        by_cases hk : k = key
        · subst hk
          congr 1
          simp only [List.count_append, List.count_cons, List.count_singleton,
            beq_self_eq_true, if_true, List.count_nil]
          omega
        · simp [List.count_append, List.count_singleton', List.count_cons, hk]

theorem normalizeHeaders_get? (values : List Cell) (i : Nat) :
    (normalizeHeaders values).get? i =
      ((normalizeBase values).get? i).map
        (fun k => renderKey k (((normalizeBase values).take i).count k)) := by
  unfold normalizeHeaders
  rw [normalizeDedup_eq]
  have h0 : (fun k => ([] : List String).count k) = fun _ => 0 := by
    funext k; simp
  rw [← h0, dedupSpec_get? (normalizeBase values) [] i]
  simp

theorem normalizeBase_length (values : List Cell) :
    (normalizeBase values).length = values.length := by
  simp [normalizeBase]

theorem normalizeHeaders_length (values : List Cell) :
    (normalizeHeaders values).length = values.length := by
  unfold normalizeHeaders
  rw [normalizeDedup_eq, dedupSpec_length, normalizeBase_length]

end JsonConv


namespace JsonConv


theorem natChars_ne_nil (fuel n : Nat) : natChars (fuel + 1) n ≠ [] := by
  unfold natChars
  by_cases h : n < 10 <;> simp [h]

theorem digitChar_inj :
    ∀ m, m < 10 → ∀ n, n < 10 → Nat.digitChar m = Nat.digitChar n → m = n := by
  decide

/-- With enough fuel, the digit list does not depend on the fuel. -/
theorem natChars_fuel_irrel :
    ∀ (f g n : Nat), n < 10 ^ f → n < 10 ^ g →
      natChars (f + 1) n = natChars (g + 1) n := by
  intro f
  induction f with
  | zero =>
    intro g n hf _
    have hn0 : n = 0 := by simpa using hf
    subst hn0
    cases g with
    | zero => rfl
    | succ g => unfold natChars; norm_num
  | succ f ih =>
    intro g n hf hg
    by_cases h : n < 10
    · cases g with
      | zero =>
        have hn0 : n = 0 := by simpa using hg
        subst hn0
        unfold natChars; norm_num
      | succ g => unfold natChars; simp [h]
    · cases g with
      | zero =>
        exfalso
        have : n = 0 := by simpa using hg
        omega
      | succ g =>
        have hdf : n / 10 < 10 ^ f := by
          rw [Nat.div_lt_iff_lt_mul (by norm_num)]
          calc n < 10 ^ (f + 1) := hf
          _ = 10 ^ f * 10 := by ring
        have hdg : n / 10 < 10 ^ g := by
          rw [Nat.div_lt_iff_lt_mul (by norm_num)]
          calc n < 10 ^ (g + 1) := hg
          _ = 10 ^ g * 10 := by ring
        show natChars (f + 1 + 1) n = natChars (g + 1 + 1) n
        unfold natChars
        simp only [h, if_false]
        rw [ih g (n / 10) hdf hdg]

/-- The canonical decimal digit list of `n` (what `natStr` wraps). -/
def natDigits (n : Nat) : List Char := natChars (n + 1) n

theorem self_lt_ten_pow (n : Nat) : n < 10 ^ n := Nat.lt_pow_self (by norm_num) n

theorem natChars_eq_natDigits (f n : Nat) (h : n < 10 ^ f) :
    natChars (f + 1) n = natDigits n := by
  unfold natDigits
  exact natChars_fuel_irrel f n n h (self_lt_ten_pow n)

theorem natDigits_small (n : Nat) (h : n < 10) : natDigits n = [Nat.digitChar n] := by
  unfold natDigits natChars
  simp [h]

theorem natDigits_large (n : Nat) (h : ¬ n < 10) :
    natDigits n = natDigits (n / 10) ++ [Nat.digitChar (n % 10)] := by
  have h1 : natDigits n = natChars (n + 1) n := rfl
  have hn1 : 1 ≤ n := by omega
  obtain ⟨m, hm⟩ : ∃ m, n = m + 1 := ⟨n - 1, by omega⟩
  subst hm
  rw [h1]
  show (if m + 1 < 10 then [Nat.digitChar (m + 1)]
        else natChars (m + 1) ((m + 1) / 10) ++ [Nat.digitChar ((m + 1) % 10)]) = _
  rw [if_neg h]
  congr 1
  apply natChars_eq_natDigits
  have hd : (m + 1) / 10 < m + 1 := Nat.div_lt_self (by omega) (by norm_num)
  calc (m + 1) / 10 < 10 ^ ((m + 1) / 10) := self_lt_ten_pow _
  _ ≤ 10 ^ m := Nat.pow_le_pow_right (by norm_num) (by omega)

theorem natDigits_ne_nil (n : Nat) : natDigits n ≠ [] := natChars_ne_nil n n

theorem natDigits_inj : ∀ m n : Nat, natDigits m = natDigits n → m = n := by
  intro m
  induction m using Nat.strong_induction_on with
  | _ m ih =>
    intro n heq
    by_cases hm : m < 10
    · by_cases hn : n < 10
      · rw [natDigits_small m hm, natDigits_small n hn] at heq
        exact digitChar_inj m hm n hn (by simpa using heq)
      · exfalso
        rw [natDigits_small m hm, natDigits_large n hn] at heq
        have hlen := congrArg List.length heq
        have hne : (natDigits (n / 10)).length ≠ 0 := by
          simpa using natDigits_ne_nil (n / 10)
        simp only [List.length_append, List.length_cons, List.length_nil] at hlen
        omega
    · by_cases hn : n < 10
      · exfalso
        rw [natDigits_large m hm, natDigits_small n hn] at heq
        have hlen := congrArg List.length heq
        have hne : (natDigits (m / 10)).length ≠ 0 := by
          simpa using natDigits_ne_nil (m / 10)
        simp only [List.length_append, List.length_cons, List.length_nil] at hlen
        omega
      · rw [natDigits_large m hm, natDigits_large n hn] at heq
        have hpair := List.append_inj' heq (by simp)
        have hmod : m % 10 = n % 10 :=
          digitChar_inj _ (Nat.mod_lt _ (by norm_num)) _ (Nat.mod_lt _ (by norm_num))
            (by simpa using hpair.2)
        have hdiv : m / 10 = n / 10 :=
          ih (m / 10) (Nat.div_lt_self (by omega) (by norm_num)) (n / 10) hpair.1
        omega

theorem natStr_inj : ∀ m n : Nat, natStr m = natStr n → m = n := by
  intro m n h
  apply natDigits_inj
  have := congrArg String.data h
  simpa [natStr, natDigits] using this

theorem natStr_ne_empty (n : Nat) : (natStr n).data ≠ [] := natDigits_ne_nil n

end JsonConv

namespace JsonConv

theorem renderKey_ne (k : String) (c1 c2 : Nat) (h : c1 < c2) :
    renderKey k c1 ≠ renderKey k c2 := by
  intro heq
  unfold renderKey at heq
  by_cases h1 : c1 = 0
  · subst h1
    rw [if_pos rfl, if_neg (by omega)] at heq
    have hdata := congrArg String.data heq
    simp only [String.data_append] at hdata
    have hl := congrArg List.length hdata
    simp only [List.length_append, List.length_cons, List.length_nil] at hl
    omega
  · rw [if_neg h1, if_neg (by omega)] at heq
    have hdata := congrArg String.data heq
    simp only [String.data_append] at hdata
    have h3 : (natStr (c1 + 1)).data = (natStr (c2 + 1)).data := by
      have h2 := List.append_cancel_left hdata
      simpa using h2
    have := natStr_inj _ _ (String.ext h3)
    omega

theorem count_take_succ_of_get? {α : Type} [DecidableEq α] (l : List α) (i : Nat) (k : α)
    (h : l.get? i = some k) :
    (l.take (i + 1)).count k = (l.take i).count k + 1 := by
  have h2 : l[i]? = some k := by rw [← List.get?_eq_getElem?]; exact h
  rw [List.take_succ, h2]
  simp [List.count_append]

theorem count_take_mono {α : Type} [DecidableEq α] (l : List α) (i j : Nat) (k : α)
    (hij : i ≤ j) :
    (l.take i).count k ≤ (l.take j).count k := by
  have hpref : l.take i <+: l.take j := by
    have : (l.take j).take i = l.take i := by
      rw [List.take_take, Nat.min_eq_left hij]
    rw [← this]
    exact List.take_prefix i (l.take j)
  exact hpref.sublist.count_le k

theorem count_take_lt (l : List String) (i j : Nat) (k : String)
    (hij : i < j) (hi : l.get? i = some k) :
    (l.take i).count k < (l.take j).count k := by
  have h1 := count_take_succ_of_get? l i k hi
  have h2 := count_take_mono l (i + 1) j k hij
  omega

end JsonConv

namespace JsonConv

/-- The base text computed for cell `c` at 0-based position `i`. -/
def baseText (i : Nat) (c : Cell) : String :=
  let text := jsTrim (stringifyCell c)
  if text.length > 0 then text else "Column" ++ natStr (i + 1)

theorem normalizeBase_get? (values : List Cell) (i : Nat) :
    (normalizeBase values).get? i = (values.get? i).map (baseText i) := by
  unfold normalizeBase
  rw [List.get?_map, List.get?_enum]
  cases values.get? i <;> simp [baseText]

theorem string_length_zero_iff (s : String) : s.length = 0 ↔ s = "" := by
  constructor
  · intro h
    apply String.ext
    have : s.data.length = 0 := h
    simpa using List.length_eq_zero.mp this
  · intro h; subst h; rfl

end JsonConv

namespace JsonConv

/-- C1: for every header row, `normalizeHeaders` preserves length and
order; occurrences of the same base key are rendered pairwise
distinct.  (The original claim that the whole output is duplicate-free
fails: a base key may collide with a suffixed occurrence of another
base key — see the counterexample.) -/
theorem claim_C1_normalize_length_and_same_base_distinct (values : List Cell) :
    (normalizeHeaders values).length = values.length ∧
      (∀ i j k, i < j →
        (normalizeBase values).get? i = some k →
        (normalizeBase values).get? j = some k →
        (normalizeHeaders values).get? i ≠ (normalizeHeaders values).get? j) := by
  refine ⟨normalizeHeaders_length values, ?_⟩
  intro i j k hij hi hj heq
  rw [normalizeHeaders_get?, normalizeHeaders_get?, hi, hj] at heq
  simp only [Option.map_some'] at heq
  exact renderKey_ne k _ _ (count_take_lt (normalizeBase values) i j k hij hi)
    (Option.some.inj heq)

/-- C1 witness: the instantiation at the header row `["X","X","X"]`. -/
theorem claim_C1_witness :
    (normalizeHeaders [Cell.str "X", Cell.str "X", Cell.str "X"]).length =
        ([Cell.str "X", Cell.str "X", Cell.str "X"] : List Cell).length ∧
      (normalizeHeaders [Cell.str "X", Cell.str "X", Cell.str "X"]).get? 0 ≠
        (normalizeHeaders [Cell.str "X", Cell.str "X", Cell.str "X"]).get? 1 :=
  ⟨(claim_C1_normalize_length_and_same_base_distinct _).1,
    (claim_C1_normalize_length_and_same_base_distinct _).2 0 1 "X" (by decide)
      (by decide) (by decide)⟩

/-- C1 counterexample: the header row `["X","X_2","X"]` normalizes to
`["X","X_2","X_2"]`, which does contain a duplicate key, refuting the
claim that the output never contains duplicate keys. -/
theorem claim_C1_counterexample :
    ¬ (normalizeHeaders [Cell.str "X", Cell.str "X_2", Cell.str "X"]).Nodup := by
  decide

/-- C2: after trimming and blank substitution, position `i` is emitted
unchanged on the first occurrence of its key and as `key_n` on the
`n`-th occurrence, `n` counting occurrences of the base key; in
particular `["X","X","X"]` normalizes to `["X","X_2","X_3"]`. -/
theorem claim_C2_occurrence_suffix :
    (∀ (values : List Cell) (i : Nat) (k : String),
        (normalizeBase values).get? i = some k →
        (normalizeHeaders values).get? i =
          some (if ((normalizeBase values).take i).count k = 0 then k
                else k ++ "_" ++ natStr (((normalizeBase values).take i).count k + 1))) ∧
      normalizeHeaders [Cell.str "X", Cell.str "X", Cell.str "X"] = ["X", "X_2", "X_3"] := by
  constructor
  · intro values i k h
    rw [normalizeHeaders_get?, h]
    simp [renderKey]
  · decide

/-- C2 witness: the second occurrence of `"X"` in `["X","X","X"]` is
emitted as `"X_2"`. -/
theorem claim_C2_witness :
    (normalizeHeaders [Cell.str "X", Cell.str "X", Cell.str "X"]).get? 1 = some "X_2" :=
  claim_C2_occurrence_suffix.1 [Cell.str "X", Cell.str "X", Cell.str "X"] 1 "X" (by decide)

/-- C8: a header row whose trimmed entries are non-empty and pairwise
distinct is returned unchanged apart from trimming. -/
theorem claim_C8_stable_unique_headers (values : List Cell)
    (hne : ∀ s ∈ values.map (fun c => jsTrim (stringifyCell c)), s ≠ "")
    (hnd : (values.map (fun c => jsTrim (stringifyCell c))).Nodup) :
    normalizeHeaders values = values.map (fun c => jsTrim (stringifyCell c)) := by
  have hbase : normalizeBase values = values.map (fun c => jsTrim (stringifyCell c)) := by
    apply List.ext_get?
    intro i
    rw [normalizeBase_get?, List.get?_map]
    cases hv : values.get? i with
    | none => rfl
    | some c =>
      simp only [Option.map_some']
      congr 1
      have hmem : jsTrim (stringifyCell c) ∈ values.map (fun c => jsTrim (stringifyCell c)) := by
        exact List.mem_map_of_mem _ (values.get?_mem hv)
      have hlen : (jsTrim (stringifyCell c)).length > 0 := by
        have := hne _ hmem
        have h0 := (string_length_zero_iff (jsTrim (stringifyCell c))).not.mpr ?_
        · omega
        · exact this
      simp [baseText, hlen]
  apply List.ext_get?
  intro i
  rw [normalizeHeaders_get?, hbase]
  cases hv : (values.map (fun c => jsTrim (stringifyCell c))).get? i with
  | none => rfl
  | some k =>
    simp only [Option.map_some']
    have hcount1 : (values.map (fun c => jsTrim (stringifyCell c))).count k ≤ 1 :=
      List.nodup_iff_count_le_one.mp hnd k
    have hsucc := count_take_succ_of_get? (values.map (fun c => jsTrim (stringifyCell c))) i k hv
    have hmono := count_take_mono (values.map (fun c => jsTrim (stringifyCell c))) (i + 1)
      (values.map (fun c => jsTrim (stringifyCell c))).length k (by
        obtain ⟨hlt, -⟩ := List.get?_eq_some.mp hv
        omega)
    rw [List.take_length] at hmono
    have hc0 : ((values.map (fun c => jsTrim (stringifyCell c))).take i).count k = 0 := by omega
    rw [hc0]
    simp [renderKey]

/-- C8 witness: `[" a ", "b"]` is returned as `["a","b"]`. -/
theorem claim_C8_witness :
    normalizeHeaders [Cell.str " a ", Cell.str "b"] =
      [Cell.str " a ", Cell.str "b"].map (fun c => jsTrim (stringifyCell c)) :=
  claim_C8_stable_unique_headers [Cell.str " a ", Cell.str "b"] (by decide) (by decide)

end JsonConv

namespace JsonConv

/-- C5: a row is classified empty exactly when every cell is null or a
string whose trimmed form is empty; any number or boolean cell makes
the row non-empty; the empty row is empty; plus the spec's concrete
classification examples. -/
theorem claim_C5_row_emptiness (row : List Cell) :
    (isRowEmpty row = true ↔
        ∀ c ∈ row, c = Cell.null ∨ ∃ s, c = Cell.str s ∧ jsTrim s = "") ∧
      (∀ c ∈ row, ((∃ n, c = Cell.num n) ∨ ∃ b, c = Cell.bool b) → isRowEmpty row = false) ∧
      isRowEmpty ([] : List Cell) = true ∧
      isRowEmpty [Cell.null, Cell.str "", Cell.str "  "] = true ∧
      isRowEmpty [Cell.num 0] = false ∧
      isRowEmpty [Cell.bool false] = false ∧
      isRowEmpty [Cell.str "a"] = false := by
  refine ⟨?_, ?_, by decide, by decide, by decide, by decide, by decide⟩
  · unfold isRowEmpty
    rw [List.all_eq_true]
    constructor
    · intro h c hc
      have := h c hc
      cases c with
      | null => exact Or.inl rfl
      | str s =>
        refine Or.inr ⟨s, rfl, ?_⟩
        have hlen : (jsTrim s).length = 0 := by simpa using this
        exact (string_length_zero_iff _).mp hlen
      | num n => simp at this
      | bool b => simp at this
    · intro h c hc
      rcases h c hc with hnull | ⟨s, hs, htrim⟩
      · subst hnull; rfl
      · subst hs
        simpa using congrArg String.length htrim
  · intro c hc hcase
    unfold isRowEmpty
    rw [List.all_eq_false]
    refine ⟨c, hc, ?_⟩
    rcases hcase with ⟨n, hn⟩ | ⟨b, hb⟩ <;> subst_vars <;> simp

/-- C5 witness: the instantiation at `[0]`, whose number cell forces
non-emptiness. -/
theorem claim_C5_witness : isRowEmpty [Cell.num 0] = false :=
  (claim_C5_row_emptiness [Cell.num 0]).2.1 (Cell.num 0) (by decide) (Or.inl ⟨0, rfl⟩)

end JsonConv

namespace JsonConv

/-- `OutputMode` from App.tsx line 5. -/
inductive OutputMode where
  | objects
  | arrays
deriving DecidableEq, Repr

/-- `ConvertOptions` from App.tsx lines 7-13 (the `sheetName` field
selects the grid before the pure conversion starts and plays no role
in it). -/
structure ConvertOptions where
  sheetName : String
  outputMode : OutputMode
  headerRowNumber : Int
  skipEmptyRows : Bool
  pretty : Bool

/-- A JSON-serializable value: the closed value domain of the
projection engine and of our model of `JSON.stringify`. -/
inductive Json where
  | str (s : String)
  | num (n : Int)
  | bool (b : Bool)
  | null
  | arr (items : List Json)
  | obj (fields : List (String × Json))

/-- Injection of a raw cell into the JSON value domain. -/
def cellJson : Cell → Json
  | Cell.str s => Json.str s
  | Cell.num n => Json.num n
  | Cell.bool b => Json.bool b
  | Cell.null => Json.null

/-- JavaScript `r[i] ?? ''`: the cell at index `i`, with a missing or
null cell replaced by the empty string. -/
def jsIndex (r : List Cell) (i : Nat) : Cell :=
  match r.get? i with
  | some Cell.null => Cell.str ""
  | some c => c
  | none => Cell.str ""

/-- Modelled from JavaScript object semantics: `obj[k] = v` keeps the
position of an existing key (updating its value in place) and appends
a fresh key at the end. -/
def recordInsert (obj : List (String × Cell)) (k : String) (v : Cell) :
    List (String × Cell) :=
  if (obj.map Prod.fst).contains k then
    obj.map (fun p => if p.1 = k then (k, v) else p)
  else obj ++ [(k, v)]

/-- The object built for one data row (App.tsx lines 116-121): for
`i` in `[0, headers.length)`, assign `obj[headers[i]] = r[i] ?? ''`. -/
def rowToObject (headers : List String) (r : List Cell) : List (String × Cell) :=
  (List.range headers.length).foldl
    (fun obj i => recordInsert obj (headers.getD i "") (jsIndex r i)) []

/-- `headerRowIndex` from App.tsx line 100. -/
def headerRowIndexOf (rows : List (List Cell)) (options : ConvertOptions) : Int :=
  clampNumber (options.headerRowNumber - 1) 0 (max 0 ((rows.length : Int) - 1))

/-- `rows[headerRowIndex] ?? []` from App.tsx line 111. -/
def headerRowOf (rows : List (List Cell)) (options : ConvertOptions) : List Cell :=
  (rows.get? (headerRowIndexOf rows options).toNat).getD []

/-- `rows.slice(headerRowIndex + 1).filter(...)` from App.tsx line 114. -/
def dataRowsOf (rows : List (List Cell)) (options : ConvertOptions) : List (List Cell) :=
  (rows.drop ((headerRowIndexOf rows options).toNat + 1)).filter
    (fun r => if options.skipEmptyRows then !isRowEmpty r else true)

/-- `exportRows` from App.tsx line 105 (arrays mode). -/
def exportRowsOf (rows : List (List Cell)) (options : ConvertOptions) : List (List Cell) :=
  if options.skipEmptyRows then rows.filter (fun r => !isRowEmpty r) else rows

/-- The pure output of the conversion (App.tsx lines 102-136), with
the projected value kept as a JSON value; its serialization is
`serialize` below. -/
structure ConvertOutput where
  data : Json
  previewRows : List (List Cell)
  rowCount : Nat
  headerRowIndex : Int

/-- The conversion body of the `useMemo` block (App.tsx lines 100-136),
after the sheet has been decoded into `rows`. -/
def convertResult (rows : List (List Cell)) (options : ConvertOptions) : ConvertOutput :=
  if options.outputMode = OutputMode.arrays then
    { data := Json.arr ((exportRowsOf rows options).map (fun r => Json.arr (r.map cellJson)))
      previewRows := (exportRowsOf rows options).take 25
      rowCount := (exportRowsOf rows options).length
      headerRowIndex := headerRowIndexOf rows options }
  else
    { data := Json.arr ((dataRowsOf rows options).map (fun r =>
        Json.obj ((rowToObject (normalizeHeaders (headerRowOf rows options)) r).map
          (fun p => (p.1, cellJson p.2)))))
      previewRows := headerRowOf rows options :: (dataRowsOf rows options).take 24
      rowCount := ((dataRowsOf rows options).map (fun r =>
        rowToObject (normalizeHeaders (headerRowOf rows options)) r)).length
      headerRowIndex := headerRowIndexOf rows options }

end JsonConv

namespace JsonConv

theorem headerRowIndexOf_nonneg (rows : List (List Cell)) (options : ConvertOptions) :
    0 ≤ headerRowIndexOf rows options := by
  unfold headerRowIndexOf clampNumber
  omega

theorem headerRowIndexOf_lt (rows : List (List Cell)) (options : ConvertOptions)
    (h : rows ≠ []) : (headerRowIndexOf rows options).toNat < rows.length := by
  have hlen : 1 ≤ rows.length := by
    cases rows with
    | nil => exact absurd rfl h
    | cons r rs => simp
  unfold headerRowIndexOf clampNumber
  omega

theorem headerRowIndexOf_nil (options : ConvertOptions) :
    headerRowIndexOf [] options = 0 := by
  unfold headerRowIndexOf clampNumber
  simp

theorem convertResult_headerRowIndex (rows : List (List Cell)) (options : ConvertOptions) :
    (convertResult rows options).headerRowIndex = headerRowIndexOf rows options := by
  unfold convertResult
  by_cases h : options.outputMode = OutputMode.arrays <;> simp [h]

/-- C4: `clampNumber` is a total two-sided clamp: for `0 ≤ mn ≤ mx`
its result lies in `[mn, mx]` and is the identity on in-range inputs;
consequently the header row index used by the conversion is always a
valid 0-based grid position (and 0 for the empty grid), whatever the
1-based `headerRowNumber` was. -/
theorem claim_C4_clamp_totality (v mn mx : Int) (_h0 : 0 ≤ mn) (hle : mn ≤ mx) :
    (mn ≤ clampNumber v mn mx ∧ clampNumber v mn mx ≤ mx ∧
        (mn ≤ v → v ≤ mx → clampNumber v mn mx = v)) ∧
      (∀ (rows : List (List Cell)) (options : ConvertOptions),
        (convertResult rows options).headerRowIndex = headerRowIndexOf rows options ∧
        0 ≤ headerRowIndexOf rows options ∧
        (rows ≠ [] → (headerRowIndexOf rows options).toNat < rows.length) ∧
        (rows = [] → headerRowIndexOf rows options = 0)) := by
  constructor
  · unfold clampNumber
    omega
  · intro rows options
    refine ⟨convertResult_headerRowIndex rows options, headerRowIndexOf_nonneg rows options,
      headerRowIndexOf_lt rows options, ?_⟩
    intro h
    subst h
    exact headerRowIndexOf_nil options

/-- C4 witness: instantiation at `v = -7`, `mn = 0`, `mx = 2` and a
three-row grid with out-of-range `headerRowNumber = 99`. -/
theorem claim_C4_witness :
    (0 ≤ clampNumber (-7) 0 2 ∧ clampNumber (-7) 0 2 ≤ 2) ∧
      (headerRowIndexOf [[Cell.null], [Cell.null], [Cell.null]]
          ⟨"s", OutputMode.objects, 99, true, true⟩).toNat < 3 := by
  have h := claim_C4_clamp_totality (-7) 0 2 (by omega) (by omega)
  exact ⟨⟨h.1.1, h.1.2.1⟩,
    (h.2 [[Cell.null], [Cell.null], [Cell.null]]
      ⟨"s", OutputMode.objects, 99, true, true⟩).2.2.1 (by decide)⟩

end JsonConv

namespace JsonConv

/-- C7: the preview never exceeds 25 rows; in objects mode it is the
header row followed by the first 24 data rows, in arrays mode the
first 25 filtered rows. -/
theorem claim_C7_preview_cap (rows : List (List Cell)) (options : ConvertOptions) :
    (convertResult rows options).previewRows.length ≤ 25 ∧
      (options.outputMode = OutputMode.objects →
        (convertResult rows options).previewRows =
          headerRowOf rows options :: (dataRowsOf rows options).take 24) ∧
      (options.outputMode = OutputMode.arrays →
        (convertResult rows options).previewRows = (exportRowsOf rows options).take 25) := by
  unfold convertResult
  by_cases h : options.outputMode = OutputMode.arrays
  · rw [if_pos h]
    refine ⟨?_, ?_, fun _ => rfl⟩
    · simp only [List.length_take]
      omega
    · intro hobj
      rw [hobj] at h
      exact absurd h (by decide)
  · rw [if_neg h]
    refine ⟨?_, fun _ => rfl, ?_⟩
    · have := List.length_take_le 24 (dataRowsOf rows options)
      simp only [List.length_cons]
      omega
    · intro harr
      exact absurd harr h

/-- C7 witness: instantiation at the one-row grid `[["a"]]` in arrays
mode. -/
theorem claim_C7_witness :
    (convertResult [[Cell.str "a"]] ⟨"s", OutputMode.arrays, 1, false, false⟩).previewRows =
      (exportRowsOf [[Cell.str "a"]] ⟨"s", OutputMode.arrays, 1, false, false⟩).take 25 :=
  (claim_C7_preview_cap [[Cell.str "a"]] ⟨"s", OutputMode.arrays, 1, false, false⟩).2.2 rfl

/-- C6: the projection engine is total — modelled as plain total
functions, every grid and configuration produces a result; moreover
the only internally indexed position (the header row lookup) is a real
grid position whenever the grid is non-empty, and the empty grid
follows the documented edge case (`headerRowIndex = 0`, empty value,
zero row count) in both modes. -/
theorem claim_C6_engine_totality (rows : List (List Cell)) (options : ConvertOptions) :
    (∃ out : ConvertOutput, convertResult rows options = out) ∧
      (rows ≠ [] →
        (rows.get? (convertResult rows options).headerRowIndex.toNat).isSome = true) ∧
      (rows = [] →
        (convertResult rows options).headerRowIndex = 0 ∧
        (convertResult rows options).data = Json.arr [] ∧
        (convertResult rows options).rowCount = 0) := by
  refine ⟨⟨convertResult rows options, rfl⟩, ?_, ?_⟩
  · intro h
    rw [convertResult_headerRowIndex]
    rw [List.get?_eq_get (headerRowIndexOf_lt rows options h)]
    rfl
  · intro h
    subst h
    refine ⟨by rw [convertResult_headerRowIndex]; exact headerRowIndexOf_nil options, ?_, ?_⟩ <;>
      · unfold convertResult exportRowsOf dataRowsOf
        by_cases hm : options.outputMode = OutputMode.arrays <;>
          by_cases hs : options.skipEmptyRows <;> simp [hm, hs]

/-- C6 witness: the empty grid in objects mode yields the documented
empty-grid results. -/
theorem claim_C6_witness :
    (convertResult [] ⟨"s", OutputMode.objects, 1, true, true⟩).headerRowIndex = 0 ∧
      (convertResult [] ⟨"s", OutputMode.objects, 1, true, true⟩).rowCount = 0 := by
  have h := (claim_C6_engine_totality [] ⟨"s", OutputMode.objects, 1, true, true⟩).2.2 rfl
  exact ⟨h.1, h.2.2⟩

end JsonConv

namespace JsonConv

/-- The object built from the first `n` assignments of the row loop. -/
def objPrefix (headers : List String) (r : List Cell) (n : Nat) : List (String × Cell) :=
  (List.range n).foldl
    (fun obj i => recordInsert obj (headers.getD i "") (jsIndex r i)) []

theorem rowToObject_eq_objPrefix (headers : List String) (r : List Cell) :
    rowToObject headers r = objPrefix headers r headers.length := rfl

theorem objPrefix_succ (headers : List String) (r : List Cell) (n : Nat) :
    objPrefix headers r (n + 1) =
      recordInsert (objPrefix headers r n) (headers.getD n "") (jsIndex r n) := by
  unfold objPrefix
  rw [List.range_succ, List.foldl_append]
  rfl

theorem lookup_update_self (k : String) (v : Cell) :
    ∀ obj : List (String × Cell), (obj.map Prod.fst).contains k = true →
      (obj.map (fun p => if p.1 = k then (k, v) else p)).lookup k = some v := by
  intro obj
  induction obj with
  | nil => intro h; simp at h
  | cons p t ih =>
    obtain ⟨pk, pv⟩ := p
    intro h
    by_cases hp : pk = k
    · subst hp
      simp [List.lookup_cons]
    · have ht : (t.map Prod.fst).contains k = true := by
        have h2 : k = pk ∨ ∃ x, (k, x) ∈ t := by simpa using h
        rcases h2 with h2 | h2
        · exact absurd h2.symm hp
        · simpa using h2
      have hbeq : (k == pk) = false := beq_eq_false_iff_ne.mpr (Ne.symm hp)
      simp [List.lookup_cons, hp, hbeq, ih ht]

theorem lookup_update_ne (k k' : String) (v : Cell) (hne : k' ≠ k) :
    ∀ obj : List (String × Cell),
      (obj.map (fun p => if p.1 = k then (k, v) else p)).lookup k' = obj.lookup k' := by
  intro obj
  induction obj with
  | nil => rfl
  | cons p t ih =>
    obtain ⟨pk, pv⟩ := p
    by_cases hp : pk = k
    · subst hp
      have hbeq : (k' == pk) = false := beq_eq_false_iff_ne.mpr hne
      simp [List.lookup_cons, hbeq, ih]
    · by_cases hq : k' = pk
      · subst hq
        simp [List.lookup_cons, hp]
      · have hbeq : (k' == pk) = false := beq_eq_false_iff_ne.mpr hq
        simp [List.lookup_cons, hp, hbeq, ih]

theorem lookup_append_single_self (k : String) (v : Cell) :
    ∀ obj : List (String × Cell), (obj.map Prod.fst).contains k = false →
      (obj ++ [(k, v)]).lookup k = some v := by
  intro obj
  induction obj with
  | nil => simp [List.lookup_cons]
  | cons p t ih =>
    obtain ⟨pk, pv⟩ := p
    intro h
    have hne : ¬ (k = pk) := by
      intro he
      simp [he] at h
    have ht : (t.map Prod.fst).contains k = false := by
      have h2 := h
      simp only [List.map_cons, List.contains_cons, Bool.or_eq_false_iff] at h2
      exact h2.2
    have hbeq : (k == pk) = false := beq_eq_false_iff_ne.mpr hne
    simp [List.lookup_cons, hbeq, ih ht]

theorem lookup_append_single_ne (k k' : String) (v : Cell) (hne : k' ≠ k) :
    ∀ obj : List (String × Cell), (obj ++ [(k, v)]).lookup k' = obj.lookup k' := by
  intro obj
  have hbeqk : (k' == k) = false := beq_eq_false_iff_ne.mpr hne
  induction obj with
  | nil => simp [List.lookup_cons, hbeqk]
  | cons p t ih =>
    obtain ⟨pk, pv⟩ := p
    by_cases hq : k' = pk
    · subst hq
      simp [List.lookup_cons]
    · have hbeq : (k' == pk) = false := beq_eq_false_iff_ne.mpr hq
      simp [List.lookup_cons, hbeq, ih]

/-- Lookup after one JavaScript property assignment: the assigned key
maps to the new value, all other keys are untouched. -/
theorem lookup_recordInsert (obj : List (String × Cell)) (k k' : String) (v : Cell) :
    (recordInsert obj k v).lookup k' = if k' = k then some v else obj.lookup k' := by
  unfold recordInsert
  by_cases hc : (obj.map Prod.fst).contains k
  · rw [if_pos hc]
    by_cases hk : k' = k
    · subst hk; rw [if_pos rfl]; exact lookup_update_self k' v obj hc
    · rw [if_neg hk]; exact lookup_update_ne k k' v hk obj
  · rw [if_neg hc]
    by_cases hk : k' = k
    · subst hk; rw [if_pos rfl]
      exact lookup_append_single_self k' v obj (by simpa using hc)
    · rw [if_neg hk]; exact lookup_append_single_ne k k' v hk obj

end JsonConv

namespace JsonConv

/-- Lookup in the row object resolves a key to the value assigned at
the LAST loop position carrying that key. -/
theorem lookup_objPrefix_last (headers : List String) (r : List Cell) :
    ∀ (n j : Nat) (k : String), j < n → headers.getD j "" = k →
      (∀ l, j < l → l < n → headers.getD l "" ≠ k) →
      (objPrefix headers r n).lookup k = some (jsIndex r j) := by
  intro n
  induction n with
  | zero => intro j k hj _ _; omega
  | succ n ih =>
    intro j k hj hk hlast
    rw [objPrefix_succ, lookup_recordInsert]
    by_cases hjn : j = n
    · subst hjn
      rw [if_pos hk.symm]
    · have hne : headers.getD n "" ≠ k := hlast n (by omega) (by omega)
      rw [if_neg (fun he => hne (he.symm))]
      exact ih j k (by omega) hk (fun l h1 h2 => hlast l h1 (by omega))

theorem keys_recordInsert (obj : List (String × Cell)) (k : String) (v : Cell) :
    (recordInsert obj k v).map Prod.fst =
      if (obj.map Prod.fst).contains k then obj.map Prod.fst
      else obj.map Prod.fst ++ [k] := by
  unfold recordInsert
  by_cases hc : (obj.map Prod.fst).contains k
  · rw [if_pos hc, if_pos hc, List.map_map]
    congr 1
    funext p
    by_cases hp : p.1 = k <;> simp [hp]
  · rw [if_neg hc, if_neg hc]
    simp

theorem keys_objPrefix_nodup (headers : List String) (r : List Cell) :
    ∀ n, ((objPrefix headers r n).map Prod.fst).Nodup := by
  intro n
  induction n with
  | zero => simp [objPrefix]
  | succ n ih =>
    rw [objPrefix_succ, keys_recordInsert]
    by_cases hc : ((objPrefix headers r n).map Prod.fst).contains (headers.getD n "")
    · rw [if_pos hc]; exact ih
    · rw [if_neg hc]
      refine List.Nodup.append ih (List.nodup_singleton _) ?_
      intro x hx hx1
      rw [List.mem_singleton] at hx1
      subst hx1
      have hmem : headers.getD n "" ∉ (objPrefix headers r n).map Prod.fst := by
        simpa using hc
      exact hmem hx

theorem keys_objPrefix_subset (headers : List String) (r : List Cell) :
    ∀ n, ∀ k ∈ (objPrefix headers r n).map Prod.fst,
      k ∈ (List.range n).map (fun i => headers.getD i "") := by
  intro n
  induction n with
  | zero => simp [objPrefix]
  | succ n ih =>
    intro k hk
    rw [objPrefix_succ, keys_recordInsert] at hk
    rw [List.range_succ, List.map_append]
    by_cases hc : ((objPrefix headers r n).map Prod.fst).contains (headers.getD n "")
    · rw [if_pos hc] at hk
      exact List.mem_append_left _ (ih k hk)
    · rw [if_neg hc] at hk
      rcases List.mem_append.mp hk with h | h
      · exact List.mem_append_left _ (ih k h)
      · exact List.mem_append_right _ (by simpa using h)

/-- A list with a repeated element has strictly fewer distinct
elements than entries. -/
theorem toFinset_card_lt_of_not_nodup (l : List String) (h : ¬ l.Nodup) :
    l.toFinset.card < l.length := by
  induction l with
  | nil => exact absurd List.nodup_nil h
  | cons a t ih =>
    rw [List.nodup_cons] at h
    push_neg at h
    by_cases ha : a ∈ t
    · have : (a :: t).toFinset = t.toFinset := by
        rw [List.toFinset_cons]
        exact Finset.insert_eq_self.mpr (List.mem_toFinset.mpr ha)
      rw [this]
      have := List.toFinset_card_le t
      simp only [List.length_cons]
      omega
    · have hnt : ¬ t.Nodup := h ha
      have := ih hnt
      have hcard : (a :: t).toFinset.card ≤ t.toFinset.card + 1 := by
        rw [List.toFinset_cons]
        exact Finset.card_insert_le _ _
      simp only [List.length_cons]
      omega

/-- The prefix-keys list of the whole header list is the header list. -/
theorem prefixKeys_full (headers : List String) :
    (List.range headers.length).map (fun i => headers.getD i "") = headers := by
  apply List.ext_get?
  intro i
  rw [List.get?_map]
  by_cases h : i < headers.length
  · rw [List.get?_range h, Option.map_some']
    rw [List.get?_eq_get h]
    congr 1
    rw [List.getD_eq_get?]
    rw [List.get?_eq_get h]
    rfl
  · rw [List.get?_eq_none.mpr (by simpa using Nat.le_of_not_lt h),
      List.get?_eq_none.mpr (by simpa using Nat.le_of_not_lt h)]
    rfl

theorem rowToObject_length_lt (headers : List String) (r : List Cell)
    (h : ¬ headers.Nodup) :
    (rowToObject headers r).length < headers.length := by
  rw [rowToObject_eq_objPrefix]
  have hlen : (objPrefix headers r headers.length).length =
      ((objPrefix headers r headers.length).map Prod.fst).length := by simp
  rw [hlen]
  have hnd := keys_objPrefix_nodup headers r headers.length
  have hsub := keys_objPrefix_subset headers r headers.length
  rw [prefixKeys_full] at hsub
  have hcard : ((objPrefix headers r headers.length).map Prod.fst).length =
      ((objPrefix headers r headers.length).map Prod.fst).toFinset.card :=
    (List.toFinset_card_of_nodup hnd).symm
  rw [hcard]
  have hle : ((objPrefix headers r headers.length).map Prod.fst).toFinset ⊆
      headers.toFinset := by
    intro x hx
    rw [List.mem_toFinset] at hx ⊢
    exact hsub x hx
  calc ((objPrefix headers r headers.length).map Prod.fst).toFinset.card
      ≤ headers.toFinset.card := Finset.card_le_card hle
  _ < headers.length := toFinset_card_lt_of_not_nodup headers h

theorem recordInsert_length_le (obj : List (String × Cell)) (k : String) (v : Cell) :
    (recordInsert obj k v).length ≤ obj.length + 1 := by
  unfold recordInsert
  by_cases hc : (obj.map Prod.fst).contains k
  · rw [if_pos hc]
    simp
  · rw [if_neg hc]
    simp

theorem rowToObject_length_le (headers : List String) (r : List Cell) :
    (rowToObject headers r).length ≤ headers.length := by
  rw [rowToObject_eq_objPrefix]
  have : ∀ n, (objPrefix headers r n).length ≤ n := by
    intro n
    induction n with
    | zero => simp [objPrefix]
    | succ n ih =>
      rw [objPrefix_succ]
      have := recordInsert_length_le (objPrefix headers r n) (headers.getD n "") (jsIndex r n)
      omega
  exact this headers.length

end JsonConv

namespace JsonConv

theorem nodup_get?_ne (l : List String) (hnd : l.Nodup) (i j : Nat) (hij : i ≠ j)
    (k : String) (hi : l.get? i = some k) : l.get? j ≠ some k := by
  intro hj
  obtain ⟨hi1, hi2⟩ := List.get?_eq_some.mp hi
  obtain ⟨hj1, hj2⟩ := List.get?_eq_some.mp hj
  have hinj := (List.nodup_iff_injective_get).mp hnd
  have := @hinj ⟨i, hi1⟩ ⟨j, hj1⟩ (by rw [hi2, hj2])
  exact hij (by simpa using congrArg Fin.val this)

theorem lookup_rowToObject_nodup (headers : List String) (r : List Cell)
    (hnd : headers.Nodup) (i : Nat) (k : String) (hi : headers.get? i = some k) :
    (rowToObject headers r).lookup k = some (jsIndex r i) := by
  obtain ⟨hlt, hget⟩ := List.get?_eq_some.mp hi
  rw [rowToObject_eq_objPrefix]
  apply lookup_objPrefix_last headers r headers.length i k hlt
  · rw [List.getD_eq_get?, hi]; rfl
  · intro l h1 h2 hl
    have hlg : headers.get? l = some k := by
      rw [List.get?_eq_get h2]
      rw [List.getD_eq_get?, List.get?_eq_get h2] at hl
      exact congrArg some hl
    exact nodup_get?_ne headers hnd i l (by omega) k hi hlg

/-- C3 (amended): in objects mode the data rows are exactly the rows
after the clamped header row (filtered when `skipEmptyRows`), the
value is the per-row object sequence in row order with `rowCount` its
length, each object has at most as many keys as headers, and — when
the normalized headers are pairwise distinct — each object binds
`headers[i]` to the row's cell `i` (missing or null cells becoming the
empty string).  With duplicate normalized keys the last assignment
wins instead (see C10). -/
theorem claim_C3_objects_projection (rows : List (List Cell)) (options : ConvertOptions)
    (hmode : options.outputMode = OutputMode.objects) :
    ((convertResult rows options).data =
        Json.arr ((dataRowsOf rows options).map (fun r =>
          Json.obj ((rowToObject (normalizeHeaders (headerRowOf rows options)) r).map
            (fun p => (p.1, cellJson p.2)))))) ∧
      (dataRowsOf rows options =
        if options.skipEmptyRows
        then (rows.drop ((headerRowIndexOf rows options).toNat + 1)).filter
              (fun r => !isRowEmpty r)
        else rows.drop ((headerRowIndexOf rows options).toNat + 1)) ∧
      ((convertResult rows options).rowCount = (dataRowsOf rows options).length) ∧
      (∀ r, (rowToObject (normalizeHeaders (headerRowOf rows options)) r).length ≤
        (normalizeHeaders (headerRowOf rows options)).length) ∧
      ((normalizeHeaders (headerRowOf rows options)).Nodup →
        ∀ (r : List Cell) (i : Nat) (k : String),
          (normalizeHeaders (headerRowOf rows options)).get? i = some k →
          (rowToObject (normalizeHeaders (headerRowOf rows options)) r).lookup k =
            some (jsIndex r i)) := by
  have harr : ¬ options.outputMode = OutputMode.arrays := by
    rw [hmode]; intro h; cases h
  refine ⟨?_, ?_, ?_, ?_, ?_⟩
  · unfold convertResult
    rw [if_neg harr]
  · unfold dataRowsOf
    by_cases hskip : options.skipEmptyRows
    · rw [if_pos hskip]
      congr 1
      funext r
      rw [if_pos hskip]
    · rw [if_neg hskip]
      rw [List.filter_eq_self.mpr]
      intro r _
      rw [if_neg hskip]
  · unfold convertResult
    rw [if_neg harr]
    simp
  · intro r
    exact rowToObject_length_le _ r
  · intro hnd r i k hk
    exact lookup_rowToObject_nodup _ r hnd i k hk

/-- C3 witness: the spec's objects-mode example grid. -/
theorem claim_C3_witness :
    (convertResult
        [[Cell.str "Name", Cell.str "Age"], [Cell.str "Ana", Cell.str "30"],
          [Cell.str "", Cell.str ""]]
        ⟨"s", OutputMode.objects, 1, true, true⟩).data =
      Json.arr [Json.obj [("Name", Json.str "Ana"), ("Age", Json.str "30")]] ∧
    (convertResult
        [[Cell.str "Name", Cell.str "Age"], [Cell.str "Ana", Cell.str "30"],
          [Cell.str "", Cell.str ""]]
        ⟨"s", OutputMode.objects, 1, true, true⟩).rowCount = 1 := by
  have h := claim_C3_objects_projection
    [[Cell.str "Name", Cell.str "Age"], [Cell.str "Ana", Cell.str "30"],
      [Cell.str "", Cell.str ""]]
    ⟨"s", OutputMode.objects, 1, true, true⟩ rfl
  refine ⟨?_, ?_⟩
  · rw [h.1]; rfl
  · rw [h.2.2.1]; rfl

/-- C3 counterexample: with header row `["X","X_2","X"]` the
normalized headers are `["X","X_2","X_2"]`; the produced object binds
`"X_2"` (which is `headers[1]`) to cell 2, not to cell 1, so the claim
"each object binds `headers[i]` to the row's cell `i`" fails as
stated. -/
theorem claim_C3_counterexample :
    (convertResult
        [[Cell.str "X", Cell.str "X_2", Cell.str "X"],
          [Cell.str "a", Cell.str "b", Cell.str "c"]]
        ⟨"s", OutputMode.objects, 1, true, true⟩).data =
      Json.arr [Json.obj [("X", Json.str "a"), ("X_2", Json.str "c")]] ∧
    (normalizeHeaders [Cell.str "X", Cell.str "X_2", Cell.str "X"]).get? 1 = some "X_2" ∧
    jsIndex [Cell.str "a", Cell.str "b", Cell.str "c"] 1 = Cell.str "b" ∧
    (rowToObject (normalizeHeaders [Cell.str "X", Cell.str "X_2", Cell.str "X"])
        [Cell.str "a", Cell.str "b", Cell.str "c"]).lookup "X_2" = some (Cell.str "c") ∧
    Cell.str "c" ≠ Cell.str "b" := by
  refine ⟨rfl, by decide, by decide, by decide, by decide⟩

/-- C10: when the normalized headers repeat a key, every produced
object binds that key to the cell at the last position carrying it,
and the object has strictly fewer keys than the header length. -/
theorem claim_C10_duplicate_keys (hdr r : List Cell) (i j : Nat) (k : String)
    (hi : (normalizeHeaders hdr).get? i = some k)
    (hj : (normalizeHeaders hdr).get? j = some k)
    (hij : i < j)
    (hlast : ∀ l, j < l → (normalizeHeaders hdr).get? l ≠ some k) :
    (rowToObject (normalizeHeaders hdr) r).lookup k = some (jsIndex r j) ∧
      (rowToObject (normalizeHeaders hdr) r).length < (normalizeHeaders hdr).length := by
  obtain ⟨hjlt, hjget⟩ := List.get?_eq_some.mp hj
  constructor
  · rw [rowToObject_eq_objPrefix]
    apply lookup_objPrefix_last (normalizeHeaders hdr) r (normalizeHeaders hdr).length j k hjlt
    · rw [List.getD_eq_get?, hj]; rfl
    · intro l h1 h2 hl
      apply hlast l h1
      rw [List.get?_eq_get h2]
      rw [List.getD_eq_get?, List.get?_eq_get h2] at hl
      exact congrArg some hl
  · apply rowToObject_length_lt
    intro hnd
    exact nodup_get?_ne (normalizeHeaders hdr) hnd i j (by omega) k hi hj

/-- C10 witness: header row `["X","X_2","X"]` with data row
`["a","b","c"]`; key `"X_2"` occurs at positions 1 and 2 and resolves
to cell 2. -/
theorem claim_C10_witness :
    (rowToObject (normalizeHeaders [Cell.str "X", Cell.str "X_2", Cell.str "X"])
        [Cell.str "a", Cell.str "b", Cell.str "c"]).lookup "X_2" =
      some (jsIndex [Cell.str "a", Cell.str "b", Cell.str "c"] 2) ∧
    (rowToObject (normalizeHeaders [Cell.str "X", Cell.str "X_2", Cell.str "X"])
        [Cell.str "a", Cell.str "b", Cell.str "c"]).length <
      (normalizeHeaders [Cell.str "X", Cell.str "X_2", Cell.str "X"]).length :=
  claim_C10_duplicate_keys [Cell.str "X", Cell.str "X_2", Cell.str "X"]
    [Cell.str "a", Cell.str "b", Cell.str "c"] 1 2 "X_2" (by decide) (by decide) (by decide)
    (by
      intro l hl
      have : (normalizeHeaders [Cell.str "X", Cell.str "X_2", Cell.str "X"]).get? l = none := by
        apply List.get?_eq_none.mpr
        have h3 : (normalizeHeaders [Cell.str "X", Cell.str "X_2", Cell.str "X"]).length = 3 :=
          by decide
        omega
      rw [this]
      intro h
      cases h)

end JsonConv

namespace JsonConv

/-- Join a list of strings with a separator (no trailing separator). -/
def joinSep (sep : String) : List String → String
  | [] => ""
  | [x] => x
  | x :: xs => x ++ sep ++ joinSep sep xs

/-- Two-space indentation at a nesting depth. -/
def indentStr (depth : Nat) : String := ⟨List.replicate (2 * depth) ' '⟩

/-- Modelled from the spec: `JSON.stringify` string escaping — quote,
backslash and control characters are escaped, everything else is kept
verbatim. -/
def escChar (c : Char) : List Char :=
  if c = '"' then ['\\', '"']
  else if c = '\\' then ['\\', '\\']
  else if c = '\x08' then ['\\', 'b']
  else if c = '\t' then ['\\', 't']
  else if c = '\n' then ['\\', 'n']
  else if c = '\x0c' then ['\\', 'f']
  else if c = '\r' then ['\\', 'r']
  else if c.toNat < 32 then ['\\', 'u', '0', '0', Nat.digitChar (c.toNat / 16), Nat.digitChar (c.toNat % 16)]
  else [c]

def escList : List Char → List Char
  | [] => []
  | c :: cs => escChar c ++ escList cs

/-- A JSON string literal: quoted and escaped. -/
def quoteString (s : String) : String := ⟨'"' :: (escList s.data ++ ['"'])⟩

/-- Modelled from the spec: `JSON.stringify(value, null, 0)` — the
most compact rendering, no whitespace at all. -/
def serCompact : Json → String
  | Json.str s => quoteString s
  | Json.num n => intStr n
  | Json.bool b => cond b "true" "false"
  | Json.null => "null"
  | Json.arr [] => "[]"
  | Json.arr (x :: xs) =>
    "[" ++ joinSep "," ((x :: xs).attach.map (fun y => serCompact y.1)) ++ "]"
  | Json.obj [] => "\x7b\x7d"
  | Json.obj (f :: fs) =>
    "\x7b" ++
      joinSep "," ((f :: fs).attach.map (fun p => quoteString p.1.1 ++ ":" ++ serCompact p.1.2)) ++
      "\x7d"
decreasing_by
  · have := List.sizeOf_lt_of_mem y.2
    simp only [Json.arr.sizeOf_spec]
    omega
  · have h1 := List.sizeOf_lt_of_mem p.2
    have h2 : sizeOf p.1.2 < sizeOf p.1 := by
      obtain ⟨⟨a, b⟩, hp⟩ := p
      simp only [Prod.mk.sizeOf_spec]
      omega
    simp only [Json.obj.sizeOf_spec]
    omega

/-- Modelled from the spec: `JSON.stringify(value, null, 2)` — pretty
rendering with two-space indentation, one item per line, and a space
after each object colon. -/
def serPretty (depth : Nat) : Json → String
  | Json.str s => quoteString s
  | Json.num n => intStr n
  | Json.bool b => cond b "true" "false"
  | Json.null => "null"
  | Json.arr [] => "[]"
  | Json.arr (x :: xs) =>
    "[\n" ++
      joinSep ",\n" ((x :: xs).attach.map
        (fun y => indentStr (depth + 1) ++ serPretty (depth + 1) y.1)) ++
      "\n" ++ indentStr depth ++ "]"
  | Json.obj [] => "\x7b\x7d"
  | Json.obj (f :: fs) =>
    "\x7b\n" ++
      joinSep ",\n" ((f :: fs).attach.map (fun p =>
        indentStr (depth + 1) ++ quoteString p.1.1 ++ ": " ++ serPretty (depth + 1) p.1.2)) ++
      "\n" ++ indentStr depth ++ "\x7d"
termination_by v => sizeOf v
decreasing_by
  · have := List.sizeOf_lt_of_mem y.2
    simp only [Json.arr.sizeOf_spec]
    omega
  · have h1 := List.sizeOf_lt_of_mem p.2
    have h2 : sizeOf p.1.2 < sizeOf p.1 := by
      obtain ⟨⟨a, b⟩, hp⟩ := p
      simp only [Prod.mk.sizeOf_spec]
      omega
    simp only [Json.obj.sizeOf_spec]
    omega

/-- The Serializer component: `JSON.stringify(data, null, pretty ? 2 : 0)`
(App.tsx line 129), modelled from the spec. -/
def serialize (v : Json) (pretty : Bool) : String :=
  if pretty then serPretty 0 v else serCompact v

/-- Whitespace characters that JSON allows between tokens. -/
def tokenWs (c : Char) : Bool :=
  c == ' ' || c == '\n' || c == '\t' || c == '\r'

/-- Remove all whitespace standing outside string literals; the state
is (inside-string, just-after-backslash). -/
def stripAux : List Char → Bool → Bool → List Char
  | [], _, _ => []
  | c :: cs, true, true => c :: stripAux cs true false
  | c :: cs, true, false =>
    if c = '\\' then c :: stripAux cs true true
    else if c = '"' then c :: stripAux cs false false
    else c :: stripAux cs true false
  | c :: cs, false, _ =>
    if c = '"' then c :: stripAux cs true false
    else if tokenWs c then stripAux cs false false
    else c :: stripAux cs false false

/-- Remove all inter-token whitespace of a JSON text. -/
def stripJsonWs (s : String) : String := ⟨stripAux s.data false false⟩

end JsonConv

namespace JsonConv

theorem serCompact_arr_cons (x : Json) (xs : List Json) :
    serCompact (Json.arr (x :: xs)) =
      "[" ++ joinSep "," ((x :: xs).map serCompact) ++ "]" := by
  rw [serCompact]
  rw [List.attach_map_val (x :: xs) serCompact]

theorem serCompact_obj_cons (f : String × Json) (fs : List (String × Json)) :
    serCompact (Json.obj (f :: fs)) =
      "\x7b" ++
        joinSep "," ((f :: fs).map (fun p => quoteString p.1 ++ ":" ++ serCompact p.2)) ++
        "\x7d" := by
  rw [serCompact]
  rw [List.attach_map_val (f :: fs) (fun p => quoteString p.1 ++ ":" ++ serCompact p.2)]

theorem serPretty_arr_cons (depth : Nat) (x : Json) (xs : List Json) :
    serPretty depth (Json.arr (x :: xs)) =
      "[\n" ++
        joinSep ",\n" ((x :: xs).map (fun y => indentStr (depth + 1) ++ serPretty (depth + 1) y)) ++
        "\n" ++ indentStr depth ++ "]" := by
  rw [serPretty]
  rw [List.attach_map_val (x :: xs) (fun y => indentStr (depth + 1) ++ serPretty (depth + 1) y)]

theorem serPretty_obj_cons (depth : Nat) (f : String × Json) (fs : List (String × Json)) :
    serPretty depth (Json.obj (f :: fs)) =
      "\x7b\n" ++
        joinSep ",\n" ((f :: fs).map (fun p =>
          indentStr (depth + 1) ++ quoteString p.1 ++ ": " ++ serPretty (depth + 1) p.2)) ++
        "\n" ++ indentStr depth ++ "\x7d" := by
  rw [serPretty]
  rw [List.attach_map_val (f :: fs) (fun p =>
    indentStr (depth + 1) ++ quoteString p.1 ++ ": " ++ serPretty (depth + 1) p.2)]

end JsonConv

namespace JsonConv

theorem stripAux_out_cons (c : Char) (h1 : ¬ c = '"') (h2 : tokenWs c = false)
    (cs : List Char) : stripAux (c :: cs) false false = c :: stripAux cs false false := by
  simp [stripAux, h1, h2]

theorem stripAux_out_ws (c : Char) (h1 : ¬ c = '"') (h2 : tokenWs c = true)
    (cs : List Char) : stripAux (c :: cs) false false = stripAux cs false false := by
  simp [stripAux, h1, h2]

theorem stripAux_inStr_cons (c : Char) (h1 : ¬ c = '\\') (h2 : ¬ c = '"')
    (cs : List Char) : stripAux (c :: cs) true false = c :: stripAux cs true false := by
  simp [stripAux, h1, h2]

theorem stripAux_plain_chunk :
    ∀ (l : List Char), (∀ c ∈ l, ¬ c = '"' ∧ tokenWs c = false) →
      ∀ rest, stripAux (l ++ rest) false false = l ++ stripAux rest false false := by
  intro l
  induction l with
  | nil => intro _ rest; rfl
  | cons c cs ih =>
    intro h rest
    have hc := h c (by simp)
    rw [List.cons_append, stripAux_out_cons c hc.1 hc.2, ih (fun d hd => h d (by simp [hd]))]
    rfl

theorem stripAux_ws_chunk :
    ∀ (l : List Char), (∀ c ∈ l, tokenWs c = true) →
      ∀ rest, stripAux (l ++ rest) false false = stripAux rest false false := by
  intro l
  induction l with
  | nil => intro _ rest; rfl
  | cons c cs ih =>
    intro h rest
    have hc := h c (by simp)
    have hq : ¬ c = '"' := by
      intro he
      subst he
      simp [tokenWs] at hc
    rw [List.cons_append, stripAux_out_ws c hq hc, ih (fun d hd => h d (by simp [hd]))]

theorem digitChar_not_special :
    ∀ m, m < 16 → ¬ Nat.digitChar m = '\\' ∧ ¬ Nat.digitChar m = '"' := by
  decide

theorem stripAux_escChar (c : Char) (rest : List Char) :
    stripAux (escChar c ++ rest) true false = escChar c ++ stripAux rest true false := by
  unfold escChar
  by_cases h1 : c = '"'
  · rw [if_pos h1]; rfl
  rw [if_neg h1]
  by_cases h2 : c = '\\'
  · rw [if_pos h2]; rfl
  rw [if_neg h2]
  by_cases h3 : c = '\x08'
  · rw [if_pos h3]; rfl
  rw [if_neg h3]
  by_cases h4 : c = '\t'
  · rw [if_pos h4]; rfl
  rw [if_neg h4]
  by_cases h5 : c = '\n'
  · rw [if_pos h5]; rfl
  rw [if_neg h5]
  by_cases h6 : c = '\x0c'
  · rw [if_pos h6]; rfl
  rw [if_neg h6]
  by_cases h7 : c = '\r'
  · rw [if_pos h7]; rfl
  rw [if_neg h7]
  by_cases h8 : c.toNat < 32
  · rw [if_pos h8]
    have hd1 := digitChar_not_special (c.toNat / 16) (by omega)
    have hd2 := digitChar_not_special (c.toNat % 16) (by omega)
    show stripAux ('\\' :: 'u' :: '0' :: '0' :: Nat.digitChar (c.toNat / 16) ::
      Nat.digitChar (c.toNat % 16) :: rest) true false = _
    rw [show stripAux ('\\' :: 'u' :: '0' :: '0' :: Nat.digitChar (c.toNat / 16) ::
        Nat.digitChar (c.toNat % 16) :: rest) true false =
      '\\' :: 'u' :: '0' :: '0' :: stripAux (Nat.digitChar (c.toNat / 16) ::
        Nat.digitChar (c.toNat % 16) :: rest) true false from rfl]
    rw [stripAux_inStr_cons _ hd1.1 hd1.2, stripAux_inStr_cons _ hd2.1 hd2.2]
    rfl
  · rw [if_neg h8]
    rw [List.singleton_append, stripAux_inStr_cons c h2 h1]
    rfl

theorem stripAux_escList (l : List Char) (rest : List Char) :
    stripAux (escList l ++ rest) true false = escList l ++ stripAux rest true false := by
  induction l generalizing rest with
  | nil => rfl
  | cons c cs ih =>
    show stripAux ((escChar c ++ escList cs) ++ rest) true false =
      (escChar c ++ escList cs) ++ stripAux rest true false
    rw [List.append_assoc, stripAux_escChar, ih, List.append_assoc]

theorem stripAux_quoteString (s : String) (rest : List Char) :
    stripAux ((quoteString s).data ++ rest) false false =
      (quoteString s).data ++ stripAux rest false false := by
  show stripAux (('"' :: (escList s.data ++ ['"'])) ++ rest) false false =
    ('"' :: (escList s.data ++ ['"'])) ++ stripAux rest false false
  rw [show (('"' :: (escList s.data ++ ['"'])) ++ rest) =
    '"' :: (escList s.data ++ ('"' :: rest)) by simp]
  rw [show stripAux ('"' :: (escList s.data ++ ('"' :: rest))) false false =
    '"' :: stripAux (escList s.data ++ ('"' :: rest)) true false from rfl]
  rw [stripAux_escList]
  rw [show stripAux ('"' :: rest) true false = '"' :: stripAux rest false false from rfl]
  rw [List.cons_append, List.append_assoc, List.singleton_append]

end JsonConv

namespace JsonConv

theorem digitChar_plain :
    ∀ m, m < 16 → ¬ Nat.digitChar m = '"' ∧ tokenWs (Nat.digitChar m) = false := by
  decide

theorem natChars_plain :
    ∀ (fuel n : Nat), ∀ c ∈ natChars fuel n, ¬ c = '"' ∧ tokenWs c = false := by
  intro fuel
  induction fuel with
  | zero => intro n c hc; simp [natChars] at hc
  | succ fuel ih =>
    intro n c hc
    unfold natChars at hc
    by_cases h : n < 10
    · rw [if_pos h] at hc
      rw [List.mem_singleton] at hc
      subst hc
      exact digitChar_plain n (by omega)
    · rw [if_neg h] at hc
      rcases List.mem_append.mp hc with h1 | h1
      · exact ih (n / 10) c h1
      · rw [List.mem_singleton] at h1
        subst h1
        exact digitChar_plain (n % 10) (Nat.lt_of_lt_of_le (Nat.mod_lt _ (by norm_num)) (by norm_num))

theorem intStr_plain (n : Int) : ∀ c ∈ (intStr n).data, ¬ c = '"' ∧ tokenWs c = false := by
  cases n with
  | ofNat m => exact natChars_plain (m + 1) m
  | negSucc m =>
    intro c hc
    have hc2 : c ∈ ("-" ++ natStr (m + 1)).data := hc
    rw [String.data_append] at hc2
    rcases List.mem_append.mp hc2 with h1 | h1
    · rw [show "-".data = ['-'] from rfl, List.mem_singleton] at h1
      subst h1
      constructor <;> decide
    · exact natChars_plain (m + 2) (m + 1) c h1

theorem stripAux_commaNl (l : List Char) :
    stripAux (',' :: '\n' :: l) false false = ',' :: stripAux l false false := rfl

theorem stripAux_nl (l : List Char) :
    stripAux ('\n' :: l) false false = stripAux l false false := rfl

theorem stripAux_replicate_space (n : Nat) (l : List Char) :
    stripAux (List.replicate n ' ' ++ l) false false = stripAux l false false := by
  induction n with
  | zero => rfl
  | succ n ih =>
    rw [List.replicate_succ, List.cons_append]
    show stripAux (' ' :: (List.replicate n ' ' ++ l)) false false = _
    rw [show stripAux (' ' :: (List.replicate n ' ' ++ l)) false false =
      stripAux (List.replicate n ' ' ++ l) false false from rfl, ih]

theorem stripAux_indent (depth : Nat) (l : List Char) :
    stripAux ((indentStr depth).data ++ l) false false = stripAux l false false :=
  stripAux_replicate_space (2 * depth) l

/-- The continuation property relating the pretty and compact
renderings of one value. -/
def StripOk (v : Json) : Prop :=
  ∀ (depth : Nat) (rest : List Char),
    stripAux ((serPretty depth v).data ++ rest) false false =
      (serCompact v).data ++ stripAux rest false false

theorem stripOk_str (s : String) : StripOk (Json.str s) := by
  intro depth rest
  simp only [serPretty, serCompact]
  exact stripAux_quoteString s rest

theorem stripOk_num (n : Int) : StripOk (Json.num n) := by
  intro depth rest
  simp only [serPretty, serCompact]
  exact stripAux_plain_chunk (intStr n).data (intStr_plain n) rest

theorem stripOk_bool (b : Bool) : StripOk (Json.bool b) := by
  intro depth rest
  simp only [serPretty, serCompact]
  cases b
  · exact stripAux_plain_chunk "false".data (by decide) rest
  · exact stripAux_plain_chunk "true".data (by decide) rest

theorem stripOk_null : StripOk Json.null := by
  intro depth rest
  simp only [serPretty, serCompact]
  exact stripAux_plain_chunk "null".data (by decide) rest

end JsonConv

namespace JsonConv

theorem strip_joinSep :
    ∀ (items : List (String × String)),
      (∀ p ∈ items, ∀ rest, stripAux (p.1.data ++ rest) false false =
        p.2.data ++ stripAux rest false false) →
      ∀ rest, stripAux ((joinSep ",\n" (items.map Prod.fst)).data ++ rest) false false =
        (joinSep "," (items.map Prod.snd)).data ++ stripAux rest false false := by
  intro items
  induction items with
  | nil => intro _ rest; rfl
  | cons p t ih =>
    intro h rest
    cases t with
    | nil => exact h p (by simp) rest
    | cons q t2 =>
      have hL : (joinSep ",\n" ((p :: q :: t2).map Prod.fst)).data ++ rest =
          p.1.data ++ (',' :: '\n' ::
            ((joinSep ",\n" ((q :: t2).map Prod.fst)).data ++ rest)) := by
        show (p.1 ++ ",\n" ++ joinSep ",\n" ((q :: t2).map Prod.fst)).data ++ rest = _
        rw [String.data_append, String.data_append,
          show (",\n").data = [',', '\n'] from rfl]
        simp [List.append_assoc]
      rw [hL, h p (by simp), stripAux_commaNl, ih (fun x hx => h x (by simp [hx])) rest]
      show _ = (p.2 ++ "," ++ joinSep "," ((q :: t2).map Prod.snd)).data ++
        stripAux rest false false
      rw [String.data_append, String.data_append, show (",").data = [','] from rfl]
      simp [List.append_assoc]

theorem stripAux_lbracket (l : List Char) :
    stripAux ('[' :: l) false false = '[' :: stripAux l false false := rfl

theorem stripAux_rbracket (l : List Char) :
    stripAux (']' :: l) false false = ']' :: stripAux l false false := rfl

theorem stripAux_lbrace (l : List Char) :
    stripAux ('\x7b' :: l) false false = '\x7b' :: stripAux l false false := rfl

theorem stripAux_rbrace (l : List Char) :
    stripAux ('\x7d' :: l) false false = '\x7d' :: stripAux l false false := rfl

theorem stripAux_colonSpace (l : List Char) :
    stripAux (':' :: ' ' :: l) false false = ':' :: stripAux l false false := rfl

theorem stripOk_arr (xs : List Json) (hxs : ∀ x ∈ xs, StripOk x) :
    StripOk (Json.arr xs) := by
  cases xs with
  | nil =>
    intro depth rest
    simp only [serPretty, serCompact]
    exact stripAux_plain_chunk "[]".data (by decide) rest
  | cons x t =>
    intro depth rest
    rw [serPretty_arr_cons, serCompact_arr_cons]
    have hitems : ∀ p ∈ (x :: t).map (fun y =>
        (indentStr (depth + 1) ++ serPretty (depth + 1) y, serCompact y)),
        ∀ r, stripAux (p.1.data ++ r) false false = p.2.data ++ stripAux r false false := by
      intro p hp r
      obtain ⟨y, hy, hpy⟩ := List.mem_map.mp hp
      subst hpy
      show stripAux ((indentStr (depth + 1) ++ serPretty (depth + 1) y).data ++ r)
        false false = _
      rw [String.data_append, List.append_assoc, stripAux_indent]
      exact hxs y hy (depth + 1) r
    have hshape : (("[\n" ++
        (joinSep ",\n" ((x :: t).map (fun y =>
          indentStr (depth + 1) ++ serPretty (depth + 1) y)) ++
          ("\n" ++ (indentStr depth ++ "]")))).data ++ rest) =
        '[' :: '\n' ::
          ((joinSep ",\n" ((x :: t).map (fun y =>
            indentStr (depth + 1) ++ serPretty (depth + 1) y))).data ++
            ('\n' :: ((indentStr depth).data ++ (']' :: rest)))) := by
      simp only [String.data_append, show ("[\n").data = ['[', '\n'] from rfl,
        show ("\n").data = ['\n'] from rfl, show ("]").data = [']'] from rfl]
      simp [List.append_assoc]
    rw [show ("[\n" ++ joinSep ",\n" ((x :: t).map (fun y =>
        indentStr (depth + 1) ++ serPretty (depth + 1) y)) ++
        "\n" ++ indentStr depth ++ "]") =
      ("[\n" ++ (joinSep ",\n" ((x :: t).map (fun y =>
        indentStr (depth + 1) ++ serPretty (depth + 1) y)) ++
        ("\n" ++ (indentStr depth ++ "]")))) by simp [String.append_assoc]]
    rw [hshape, stripAux_lbracket, stripAux_nl]
    have hmapfst : (x :: t).map (fun y => indentStr (depth + 1) ++ serPretty (depth + 1) y) =
        ((x :: t).map (fun y =>
          (indentStr (depth + 1) ++ serPretty (depth + 1) y, serCompact y))).map Prod.fst := by
      rw [List.map_map]
      rfl
    have hmapsnd : (x :: t).map serCompact =
        ((x :: t).map (fun y =>
          (indentStr (depth + 1) ++ serPretty (depth + 1) y, serCompact y))).map Prod.snd := by
      rw [List.map_map]
      rfl
    rw [hmapfst, strip_joinSep _ hitems, stripAux_nl, stripAux_indent, stripAux_rbracket,
      ← hmapsnd]
    show _ = ("[" ++ (joinSep "," ((x :: t).map serCompact) ++ "]")).data ++
      stripAux rest false false
    rw [String.data_append, String.data_append, show ("[").data = ['['] from rfl,
      show ("]").data = [']'] from rfl]
    simp [List.append_assoc]

end JsonConv

namespace JsonConv

theorem stripOk_obj (fs : List (String × Json)) (hfs : ∀ p ∈ fs, StripOk p.2) :
    StripOk (Json.obj fs) := by
  cases fs with
  | nil =>
    intro depth rest
    simp only [serPretty, serCompact]
    exact stripAux_plain_chunk ("\x7b\x7d").data (by decide) rest
  | cons f t =>
    intro depth rest
    rw [serPretty_obj_cons, serCompact_obj_cons]
    have hitems : ∀ p ∈ (f :: t).map (fun q =>
        (indentStr (depth + 1) ++ quoteString q.1 ++ ": " ++ serPretty (depth + 1) q.2,
          quoteString q.1 ++ ":" ++ serCompact q.2)),
        ∀ r, stripAux (p.1.data ++ r) false false = p.2.data ++ stripAux r false false := by
      intro p hp r
      obtain ⟨q, hq, hpq⟩ := List.mem_map.mp hp
      subst hpq
      have e1 : (indentStr (depth + 1) ++ quoteString q.1 ++ ": " ++
          serPretty (depth + 1) q.2).data ++ r =
          (indentStr (depth + 1)).data ++ ((quoteString q.1).data ++
            (':' :: ' ' :: ((serPretty (depth + 1) q.2).data ++ r))) := by
        simp only [String.data_append, show (": ").data = [':', ' '] from rfl]
        simp [List.append_assoc]
      show stripAux ((indentStr (depth + 1) ++ quoteString q.1 ++ ": " ++
        serPretty (depth + 1) q.2).data ++ r) false false = _
      rw [e1, stripAux_indent, stripAux_quoteString, stripAux_colonSpace,
        hfs q hq (depth + 1) r]
      show _ = (quoteString q.1 ++ ":" ++ serCompact q.2).data ++ stripAux r false false
      simp only [String.data_append, show (":").data = [':'] from rfl]
      simp [List.append_assoc]
    have hshape : (("\x7b\n" ++
        (joinSep ",\n" ((f :: t).map (fun q =>
          indentStr (depth + 1) ++ quoteString q.1 ++ ": " ++ serPretty (depth + 1) q.2)) ++
          ("\n" ++ (indentStr depth ++ "\x7d")))).data ++ rest) =
        '\x7b' :: '\n' ::
          ((joinSep ",\n" ((f :: t).map (fun q =>
            indentStr (depth + 1) ++ quoteString q.1 ++ ": " ++
              serPretty (depth + 1) q.2))).data ++
            ('\n' :: ((indentStr depth).data ++ ('\x7d' :: rest)))) := by
      simp only [String.data_append, show ("\x7b\n").data = ['\x7b', '\n'] from rfl,
        show ("\n").data = ['\n'] from rfl, show ("\x7d").data = ['\x7d'] from rfl]
      simp [List.append_assoc]
    rw [show ("\x7b\n" ++ joinSep ",\n" ((f :: t).map (fun q =>
        indentStr (depth + 1) ++ quoteString q.1 ++ ": " ++ serPretty (depth + 1) q.2)) ++
        "\n" ++ indentStr depth ++ "\x7d") =
      ("\x7b\n" ++ (joinSep ",\n" ((f :: t).map (fun q =>
        indentStr (depth + 1) ++ quoteString q.1 ++ ": " ++ serPretty (depth + 1) q.2)) ++
        ("\n" ++ (indentStr depth ++ "\x7d")))) by simp [String.append_assoc]]
    rw [hshape, stripAux_lbrace, stripAux_nl]
    have hmapfst : (f :: t).map (fun q =>
        indentStr (depth + 1) ++ quoteString q.1 ++ ": " ++ serPretty (depth + 1) q.2) =
        ((f :: t).map (fun q =>
          (indentStr (depth + 1) ++ quoteString q.1 ++ ": " ++ serPretty (depth + 1) q.2,
            quoteString q.1 ++ ":" ++ serCompact q.2))).map Prod.fst := by
      rw [List.map_map]
      rfl
    have hmapsnd : (f :: t).map (fun q => quoteString q.1 ++ ":" ++ serCompact q.2) =
        ((f :: t).map (fun q =>
          (indentStr (depth + 1) ++ quoteString q.1 ++ ": " ++ serPretty (depth + 1) q.2,
            quoteString q.1 ++ ":" ++ serCompact q.2))).map Prod.snd := by
      rw [List.map_map]
      rfl
    rw [hmapfst, strip_joinSep _ hitems, stripAux_nl, stripAux_indent, stripAux_rbrace,
      ← hmapsnd]
    show _ = ("\x7b" ++ (joinSep "," ((f :: t).map (fun q =>
      quoteString q.1 ++ ":" ++ serCompact q.2)) ++ "\x7d")).data ++ stripAux rest false false
    rw [String.data_append, String.data_append, show ("\x7b").data = ['\x7b'] from rfl,
      show ("\x7d").data = ['\x7d'] from rfl]
    simp [List.append_assoc]

end JsonConv

namespace JsonConv

theorem stripOk_of_size : ∀ (n : Nat) (v : Json), sizeOf v ≤ n → StripOk v := by
  intro n
  induction n with
  | zero =>
    intro v h
    exfalso
    cases v <;> simp at h
  | succ n ih =>
    intro v h
    cases v with
    | str s => exact stripOk_str s
    | num m => exact stripOk_num m
    | bool b => exact stripOk_bool b
    | null => exact stripOk_null
    | arr xs =>
      apply stripOk_arr
      intro x hx
      apply ih
      have h1 := List.sizeOf_lt_of_mem hx
      have h2 : sizeOf (Json.arr xs) = 1 + sizeOf xs := by simp
      omega
    | obj fs =>
      apply stripOk_obj
      intro p hp
      apply ih
      have h1 := List.sizeOf_lt_of_mem hp
      have h2 : sizeOf (Json.obj fs) = 1 + sizeOf fs := by simp
      have h3 : sizeOf p.2 < sizeOf p := by
        obtain ⟨a, b⟩ := p
        simp only [Prod.mk.sizeOf_spec]
        omega
      omega

theorem stripOk_all (v : Json) : StripOk v := stripOk_of_size (sizeOf v) v (Nat.le_refl _)

theorem stripAux_length_le :
    ∀ (l : List Char) (b1 b2 : Bool), (stripAux l b1 b2).length ≤ l.length := by
  intro l
  induction l with
  | nil => intro b1 b2; simp [stripAux]
  | cons c cs ih =>
    intro b1 b2
    cases b1 with
    | true =>
      cases b2 with
      | true =>
        show (c :: stripAux cs true false).length ≤ _
        have := ih true false
        simp only [List.length_cons]
        omega
      | false =>
        show (stripAux (c :: cs) true false).length ≤ _
        unfold stripAux
        by_cases h1 : c = '\\'
        · rw [if_pos h1]
          have := ih true true
          simp only [List.length_cons]
          omega
        rw [if_neg h1]
        by_cases h2 : c = '"'
        · rw [if_pos h2]
          have := ih false false
          simp only [List.length_cons]
          omega
        · rw [if_neg h2]
          have := ih true false
          simp only [List.length_cons]
          omega
    | false =>
      show (stripAux (c :: cs) false b2).length ≤ _
      unfold stripAux
      by_cases h1 : c = '"'
      · rw [if_pos h1]
        have := ih true false
        simp only [List.length_cons]
        omega
      rw [if_neg h1]
      by_cases h2 : tokenWs c
      · rw [if_pos h2]
        have := ih false false
        simp only [List.length_cons]
        omega
      · rw [if_neg h2]
        have := ih false false
        simp only [List.length_cons]
        omega

/-- C9: for every value the projection engine produces, the pretty
serialization differs from the compact one only by whitespace outside
string literals (stripping that whitespace yields exactly the compact
text, so both parse back to the same value), and the compact text is
never longer than the pretty one. -/
theorem claim_C9_serialize_pretty_compact (rows : List (List Cell))
    (options : ConvertOptions) :
    stripJsonWs (serialize (convertResult rows options).data true) =
        serialize (convertResult rows options).data false ∧
      (serialize (convertResult rows options).data false).length ≤
        (serialize (convertResult rows options).data true).length := by
  constructor
  · apply String.ext
    show stripAux (serialize (convertResult rows options).data true).data false false = _
    have h := stripOk_all (convertResult rows options).data 0 []
    rw [List.append_nil] at h
    show stripAux ((serPretty 0 (convertResult rows options).data).data) false false = _
    rw [h]
    show _ ++ stripAux [] false false = (serCompact (convertResult rows options).data).data
    simp [stripAux]
  · have h := stripOk_all (convertResult rows options).data 0 []
    rw [List.append_nil] at h
    have hlen := congrArg List.length h
    have hle := stripAux_length_le (serPretty 0 (convertResult rows options).data).data
      false false
    show (serCompact (convertResult rows options).data).length ≤
      (serPretty 0 (convertResult rows options).data).length
    have h1 : (serCompact (convertResult rows options).data).length =
        (serCompact (convertResult rows options).data).data.length := rfl
    have h2 : (serPretty 0 (convertResult rows options).data).length =
        (serPretty 0 (convertResult rows options).data).data.length := rfl
    rw [h1, h2]
    simp only [List.length_append] at hlen
    have h3 : (stripAux [] false false).length = 0 := rfl
    omega

end JsonConv
